import Mathlib

/-!
Verification of the chord recognizer / transposition engine of `musiccharts`.

The repository files `cli.py`, `data_processing.py` and `read_file.py` are
embedded below.  The module `musiccharts/data_definitions.py` (the `CHORDS`
translation table and the regular expressions `CHORD_REGEX1/2/3`) is not part
of the available sources; those pieces are modelled from the specification and
are marked `Modelled from the spec:` in their doc comments.  Strings are
modelled as lists of characters.
-/

namespace MusicCharts

/-- Strings of the Python program, modelled as lists of characters. -/
abbrev Str := List Char

/-- Convert a Lean string literal into the character-list model. -/
def chars (s : String) : Str := s.data

/-- Whitespace test used by Python `str.rstrip()`. -/
def isWS (c : Char) : Bool := c == ' ' || c == '\t' || c == '\n' || c == '\r'

/-- Test whether `pat` is an initial segment of `l` (used by `replaceAll`). -/
def leads : Str → Str → Bool
  | [], _ => true
  | _ :: _, [] => false
  | a :: as, b :: bs => a == b && leads as bs

/-- Fuelled worker for `replaceAll`; the fuel is always at least the length of
the scanned text, so the `0` case is unreachable. -/
def replaceAllFuel : Nat → Str → Str → Str → Str
  | 0, _, _, l => l
  | _ + 1, _, _, [] => []
  | fuel + 1, pat, repl, c :: cs =>
    if !pat.isEmpty && leads pat (c :: cs) then
      repl ++ replaceAllFuel fuel pat repl (List.drop pat.length (c :: cs))
    else
      c :: replaceAllFuel fuel pat repl cs

/-- Python `str.replace(pat, repl)`: leftmost, non-overlapping, replaces every
occurrence, does not rescan replacement text. -/
def replaceAll (pat repl l : Str) : Str := replaceAllFuel l.length pat repl l

/-- Python `str.rstrip()`: remove trailing whitespace. -/
def rstrip (l : Str) : Str := (l.reverse.dropWhile isWS).reverse

/-- Modelled from the spec: the 13 recognized key identifiers
(`list(vars.CHORDS.keys())` of the missing `data_definitions` module), spec
section 3: `NNS` plus the 12 lettered keys. -/
def CHORD_KEYS : List String :=
  ["NNS", "Ab", "A", "Bb", "B", "C", "Db", "D", "Eb", "E", "F", "Gb", "G"]

/-- Modelled from the spec: for each lettered key, the scale roots for degrees
1-7 (spec section 3: in key C, degree `1` is `C`; standard major scales for the
other keys). -/
def scaleOf (key : String) : List Str :=
  match key with
  | "Ab" => [chars "Ab", chars "Bb", chars "C", chars "Db", chars "Eb", chars "F", chars "G"]
  | "A" => [chars "A", chars "B", chars "C#", chars "D", chars "E", chars "F#", chars "G#"]
  | "Bb" => [chars "Bb", chars "C", chars "D", chars "Eb", chars "F", chars "G", chars "A"]
  | "B" => [chars "B", chars "C#", chars "D#", chars "E", chars "F#", chars "G#", chars "A#"]
  | "C" => [chars "C", chars "D", chars "E", chars "F", chars "G", chars "A", chars "B"]
  | "Db" => [chars "Db", chars "Eb", chars "F", chars "Gb", chars "Ab", chars "Bb", chars "C"]
  | "D" => [chars "D", chars "E", chars "F#", chars "G", chars "A", chars "B", chars "C#"]
  | "Eb" => [chars "Eb", chars "F", chars "G", chars "Ab", chars "Bb", chars "C", chars "D"]
  | "E" => [chars "E", chars "F#", chars "G#", chars "A", chars "B", chars "C#", chars "D#"]
  | "F" => [chars "F", chars "G", chars "A", chars "Bb", chars "C", chars "D", chars "E"]
  | "Gb" => [chars "Gb", chars "Ab", chars "Bb", chars "Cb", chars "Db", chars "Eb", chars "F"]
  | "G" => [chars "G", chars "A", chars "B", chars "C", chars "D", chars "E", chars "F#"]
  | _ => []

/-- Modelled from the spec: lower a root by a semitone, spelled with a flat
(spec section 3: in key C, `b3` is `Eb`). -/
def lowerRoot (s : Str) : Str :=
  if s.getLast? = some '#' then s.dropLast else s ++ ['b']

/-- Modelled from the spec: raise a root by a semitone, spelled with a sharp. -/
def raiseRoot (s : Str) : Str :=
  if s.getLast? = some 'b' then s.dropLast else s ++ ['#']

/-- Modelled from the spec: `vars.CHORDS[key][tok]`, the translation table.
For `NNS` every scale-degree token maps to itself; for a lettered key an
optional accidental `b`/`#` plus a degree digit `1`-`7` maps to the lettered
root (spec sections 3 and 4.1).  The table is total on the tokens the
tokenizer can produce. -/
def translate (key : String) (tok : Str) : Str :=
  if key = "NNS" then tok
  else
    match tok with
    | [d] => (scaleOf key).getD (d.toNat - 49) []
    | [a, d] =>
      if a = 'b' then lowerRoot ((scaleOf key).getD (d.toNat - 49) [])
      else if a = '#' then raiseRoot ((scaleOf key).getD (d.toNat - 49) [])
      else []
    | _ => []

/-- Accidental characters of the notation. -/
def isAcc (c : Char) : Bool := c == 'b' || c == '#'

/-- Scale-degree digits `1`-`7`. -/
def isDeg (c : Char) : Bool := '1' ≤ c && c ≤ '7'

/-- Modelled from the spec: the bass-token grammar enforced by the missing
`CHORD_REGEX2`/`CHORD_REGEX3` pair — a bass part is valid exactly when it is an
optional accidental followed by a single degree digit (spec section 4.2:
"digit, optional accidental"). -/
def validBass (s : Str) : Bool :=
  match s with
  | [d] => isDeg d
  | [a, d] => isAcc a && isDeg d
  | _ => false

/-- A tokenizer result: the five positional fields of `CHORD_REGEX1.findall`
(leading filler, accidental, degree digit, trailing text, trailing filler). -/
structure ChordMatch where
  f0 : Str
  f1 : Str
  f2 : Str
  f3 : Str
  f4 : Str
deriving DecidableEq, Repr

/-- Concatenation of the five positional fields of a match. -/
def ChordMatch.text (m : ChordMatch) : Str := m.f0 ++ m.f1 ++ m.f2 ++ m.f3 ++ m.f4

/-- Split the text after the degree digit into trailing text (the maximal run
of non-space characters), trailing filler (at most one following space) and
the rest of the line. -/
def tail34 (rest : Str) : Str × Str × Str :=
  let f3 := rest.takeWhile (fun c => !(c == ' '))
  let r3 := rest.dropWhile (fun c => !(c == ' '))
  (f3, r3.take 1, r3.drop 1)

/-- Modelled from the spec: one attempt of the missing `CHORD_REGEX1` at the
start of `l` — optional leading spaces, an optional accidental, a mandatory
degree digit, then the trailing fields (spec section 4.2).  Returns the match
and the unconsumed remainder. -/
def matchChord (l : Str) : Option (ChordMatch × Str) :=
  let f0 := l.takeWhile (fun c => c == ' ')
  match l.dropWhile (fun c => c == ' ') with
  | [] => none
  | c :: rest =>
    if isAcc c then
      match rest with
      | [] => none
      | d :: rest2 =>
        if isDeg d then
          let t := tail34 rest2
          some (⟨f0, [c], [d], t.1, t.2.1⟩, t.2.2)
        else none
    else if isDeg c then
      let t := tail34 rest
      some (⟨f0, [], [c], t.1, t.2.1⟩, t.2.2)
    else none

/-- A segment of a scanned line: an unmatched character or a chord match. -/
inductive Seg where
  | plain : Char → Seg
  | chord : ChordMatch → Seg
deriving DecidableEq, Repr

/-- The text a segment stands for. -/
def segText : Seg → Str
  | .plain c => [c]
  | .chord m => m.text

/-- Concatenation of the texts of a list of segments. -/
def segsText (ss : List Seg) : Str := ss.foldr (fun s acc => segText s ++ acc) []

/-- Modelled from the spec: fuelled left-to-right scan of a line by
`CHORD_REGEX1.findall`, emitting unmatched characters and chord matches. -/
def scanFuel : Nat → Str → List Seg
  | 0, _ => []
  | _ + 1, [] => []
  | fuel + 1, c :: cs =>
    match matchChord (c :: cs) with
    | some (m, r) => Seg.chord m :: scanFuel fuel r
    | none => Seg.plain c :: scanFuel fuel cs

/-- Scan a whole line (the fuel `l.length` always suffices). -/
def scan (l : Str) : List Seg := scanFuel l.length l

/-- The chord matches of a line, in order (`CHORD_REGEX1.findall(line)`). -/
def scanMatches (l : Str) : List ChordMatch :=
  (scan l).filterMap (fun s => match s with | .chord m => some m | .plain _ => none)

/-- The canonical field decomposition of a matched substring: the fields of a
scanner match are recoverable from their concatenation. -/
def canonOf (c : Str) : ChordMatch :=
  let f0 := c.takeWhile (fun x => x == ' ')
  let r1 := c.dropWhile (fun x => x == ' ')
  match r1 with
  | [] => ⟨f0, [], [], [], []⟩
  | x :: rest =>
    if isAcc x then
      match rest with
      | [] => ⟨f0, [x], [], [], []⟩
      | d :: r2 =>
        ⟨f0, [x], [d], r2.takeWhile (fun y => !(y == ' ')), r2.dropWhile (fun y => !(y == ' '))⟩
    else ⟨f0, [], [x], rest.takeWhile (fun y => !(y == ' ')), rest.dropWhile (fun y => !(y == ' '))⟩

/-- Strip the triangle glyph before measuring width:
`item[i].replace("△", "")` in `data_processing.format_line`. -/
def stripTri (s : Str) : Str := s.filter (fun c => !(c == '△'))

/-- A run of `n` spaces (`count * " "`; a non-positive count gives
the empty string, as in Python). -/
def spaces (n : Nat) : Str := List.replicate n ' '

/-- Superscript markup for the pre-chord accidental in NNS output
(`data_processing.py` lines 86-87). -/
def tsWrapPre (s : Str) : Str :=
  chars "\\ts\x7b\x7b\\thin" ++ spaces (stripTri s).length ++ chars "\x7d" ++ s ++ chars "\x7d"

/-- Superscript markup for the post-chord trailing text
(`data_processing.py` lines 119-121). -/
def tsWrapPost (s : Str) (rps : Nat) : Str :=
  chars "\\ts\x7b" ++ s ++ chars "\x7b\\thin" ++ spaces ((stripTri s).length - rps) ++ chars "\x7d\x7d"

/-- A chord syntax error record: `{"chord": ..., "line_num": ...}`
(`data_processing.py` lines 111-113). -/
structure ChordError where
  chord : Str
  line_num : Nat
deriving DecidableEq, Repr

/-- One iteration of the per-match loop of `format_line`
(`data_processing.py` lines 73-125), with the five-iteration inner field loop
unrolled.  Returns the `(original_chord, edited_chord)` pair and the chord
errors appended by this match.  `remove_partial_space` is `0` throughout, as
in the source, where it is initialized and never changed. -/
def chordStep (key : String) (n : Nat) (m : ChordMatch) : (Str × Str) × List ChordError :=
  let rps : Nat := 0
  let e0 := m.f0
  let s1 : Str × Nat :=
    if key = "NNS" then
      if ¬(m.f1 = [] ∨ m.f1 = [' '] ∨ m.f1 = ['\n']) then (e0 ++ tsWrapPre m.f1, 0)
      else (e0, 0)
    else
      let t := translate key (m.f1 ++ m.f2)
      (e0 ++ t, if 1 < t.length then 1 else 0)
  let s2 : Str × Nat :=
    if key = "NNS" then
      let t := translate key m.f2
      (s1.1 ++ t, s1.2 + (if 1 < t.length then 1 else 0))
    else s1
  let s3 : Str × Nat × List ChordError :=
    if ¬(m.f3 = [] ∨ m.f3 = [' '] ∨ m.f3 = ['\n']) then
      if '/' ∈ m.f3 then
        let s1b := (m.f3.splitOn '/').getD 1 []
        if ¬validBass s1b ∨ 1 < m.f3.count '/' then
          (s2.1, s2.2, [⟨m.f0 ++ m.f1 ++ m.f2 ++ m.f3 ++ m.f4, n⟩])
        else
          let t := translate key s1b
          let f3v := (m.f3.splitOn '/').getD 0 [] ++ ['/'] ++ t
          (s2.1 ++ tsWrapPost f3v rps, s2.2 + (if s1b.length < t.length then 1 else 0), [])
      else (s2.1 ++ tsWrapPost m.f3 rps, s2.2, [])
    else (s2.1, s2.2, [])
  let orig := m.f0 ++ m.f1 ++ m.f2 ++ m.f3 ++ m.f4
  let orig := if s3.2.1 = 1 then orig ++ [' '] else orig
  ((orig, s3.1 ++ m.f4), s3.2.2)

/-- The chord errors a single match contributes, read off from the field-3
validation alone (the error branch of `data_processing.py` lines 104-114 never
consults the key). -/
def chordErrsOf (n : Nat) (m : ChordMatch) : List ChordError :=
  if ¬(m.f3 = [] ∨ m.f3 = [' '] ∨ m.f3 = ['\n']) ∧ '/' ∈ m.f3 ∧
      (¬validBass ((m.f3.splitOn '/').getD 1 []) ∨ 1 < m.f3.count '/') then
    [⟨m.text, n⟩]
  else []

/-- The per-line match loop of `format_line` (`data_processing.py` lines
71-127): accumulate deduplicated `(original, edited)` pairs and all chord
errors. -/
def processMatchesFrom (key : String) (n : Nat) :
    List ChordMatch → List (Str × Str) → List ChordError → List (Str × Str) × List ChordError
  | [], pairs, errs => (pairs, errs)
  | m :: rest, pairs, errs =>
    let r := chordStep key n m
    let pairs' := if r.1 ∈ pairs then pairs else pairs ++ [r.1]
    processMatchesFrom key n rest pairs' (errs ++ r.2)

/-- All pairs and errors of a line's matches, starting from empty state. -/
def processMatches (key : String) (n : Nat) (ms : List ChordMatch) :
    List (Str × Str) × List ChordError :=
  processMatchesFrom key n ms [] []

/-- Strip parentheses before matching:
`line.replace("(", "").replace(")", "")` (`data_processing.py` line 70). -/
def stripParens (l : Str) : Str := replaceAll (chars ")") [] (replaceAll (chars "(") [] l)

/-- The substitution loop of `format_line` (`data_processing.py` lines
130-131): for each pair, append a space, replace every occurrence of the
original chord text, and strip trailing whitespace. -/
def applyPairs (pairs : List (Str × Str)) (line : Str) : Str :=
  pairs.foldl (fun cur p => rstrip (replaceAll p.1 p.2 (cur ++ [' ']))) line

/-- The chord phase of `format_line` (`data_processing.py` lines 70-136): find
matches on the parenthesis-stripped line, build pairs and errors, substitute
into the original line.  The preceding intro/title/label markup phases (lines
53-67) use regexes from the missing `data_definitions` module and act as the
identity on lines without title, label or intro markers; the claims below all
concern the chord phase. -/
def formatChords (line : Str) (n : Nat) (key : String) : Str × List ChordError :=
  let r := processMatches key n (scanMatches (stripParens line))
  (applyPairs r.1 line, r.2)

/-- `data_processing.validate_keys` (lines 17-30): collect the keys missing
from the table, and abort with a single message naming all of them when any
exist.  `some msg` models `print(msg); sys.exit(1)`. -/
def validate_keys (keys : List String) : Option String :=
  let bad := keys.foldl (fun acc k => if k ∈ CHORD_KEYS then acc else acc ++ [k]) []
  if 0 < bad.length then
    some ("\nError - invalid keys found: " ++ String.intercalate "," bad ++ "\n")
  else none

/-- The per-line loop of one key pass in `cli.main` (lines 94-109): the line
counter `i` starts at `0` and increments once per line; formatted lines and
chord errors are accumulated in order. -/
def keyPassFrom (key : String) : Nat → List Str → List Str × List ChordError
  | _, [] => ([], [])
  | i, line :: rest =>
    let r := formatChords line i key
    let t := keyPassFrom key (i + 1) rest
    (r.1 :: t.1, r.2 ++ t.2)

/-- One full key pass over the file contents, starting at line counter `0`. -/
def keyPass (key : String) (contents : List Str) : List Str × List ChordError :=
  keyPassFrom key 0 contents

/-- The per-key loop of `cli.main` (lines 93-129): each key pass owns fresh
state; if a pass has chord errors the program prints them and exits
(`sys.exit(1)`), so no document is generated for that key or any later key;
otherwise the key's document is generated and the next key is processed. -/
def processKeys (keys : List String) (contents : List Str) :
    List (String × List Str) × Option (String × List ChordError) :=
  match keys with
  | [] => ([], none)
  | k :: ks =>
    let r := keyPass k contents
    if r.2 = [] then
      let t := processKeys ks contents
      ((k, r.1) :: t.1, t.2)
    else ([], some (k, r.2))

/-- The key-handling skeleton of `cli.main`: validate the user-supplied keys
first (lines 89-90); only when validation passes is any per-line processing
performed (lines 93-129). -/
def mainRun (keys : List String) (contents : List Str) :
    Except String (List (String × List Str) × Option (String × List ChordError)) :=
  match validate_keys keys with
  | some msg => Except.error msg
  | none => Except.ok (processKeys keys contents)

/-- Parameter names of `def format_line(line, line_num, key, debug=False)`
(`data_processing.py` line 33). -/
def formatLineParams : List String := ["line", "line_num", "key", "debug"]

/-- Keyword-argument names used at the `format_line` call site in `cli.main`
(`cli.py` lines 99-105). -/
def mainCallKwargs : List String :=
  ["line", "line_num", "key", "next_line_after_intro", "debug"]

/-- Keys of the dict returned by `format_line` (`data_processing.py` line
136): `{"edits": ..., "errors": ...}`. -/
def formatLineResultKeys : List String := ["edits", "errors"]

/-- Python keyword-call semantics: a call raises `TypeError` unless every
keyword argument names a declared parameter. -/
def kwargsAccepted (params kwargs : List String) : Bool :=
  kwargs.all (fun k => params.contains k)

theorem takeWhile_app_of_all {p : Char → Bool} (l₁ l₂ : Str) (h : ∀ c ∈ l₁, p c = true) :
    (l₁ ++ l₂).takeWhile p = l₁ ++ l₂.takeWhile p := by
  induction l₁ with
  | nil => simp
  | cons c cs ih =>
    have hc : p c = true := h c (by simp)
    simp only [List.cons_append, List.takeWhile_cons, hc, if_true]
    rw [ih (fun x hx => h x (by simp [hx]))]

theorem dropWhile_app_of_all {p : Char → Bool} (l₁ l₂ : Str) (h : ∀ c ∈ l₁, p c = true) :
    (l₁ ++ l₂).dropWhile p = l₂.dropWhile p := by
  induction l₁ with
  | nil => simp
  | cons c cs ih =>
    have hc : p c = true := h c (by simp)
    simp only [List.cons_append, List.dropWhile_cons, hc, if_true]
    exact ih (fun x hx => h x (by simp [hx]))

theorem dropWhile_head_false {p : Char → Bool} :
    ∀ (l : Str) {c : Char} {cs : Str}, l.dropWhile p = c :: cs → p c = false := by
  intro l
  induction l with
  | nil => intro c cs h; simp at h
  | cons a as ih =>
    intro c cs h
    by_cases ha : p a
    · rw [List.dropWhile_cons, if_pos ha] at h
      exact ih h
    · rw [List.dropWhile_cons, if_neg ha] at h
      cases h
      simpa using ha

theorem tail34_text (rest : Str) :
    (tail34 rest).1 ++ ((tail34 rest).2.1 ++ (tail34 rest).2.2) = rest := by
  simp only [tail34, List.take_append_drop, List.takeWhile_append_dropWhile]

/-- Every character of `tail34`'s trailing-text field is a non-space. -/
theorem tail34_f3_nonspace (rest : Str) :
    ∀ c ∈ (tail34 rest).1, (c == ' ') = false := by
  intro c hc
  simp only [tail34] at hc
  have h2 := List.mem_takeWhile_imp hc
  simpa using h2

/-- The trailing-filler field of `tail34` is empty or a single space. -/
theorem tail34_f4_space (rest : Str) :
    (tail34 rest).2.1 = [] ∨ (tail34 rest).2.1 = [' '] := by
  rcases hd : rest.dropWhile (fun c => !(c == ' ')) with _ | ⟨c, cs⟩
  · left; simp [tail34, hd]
  · right
    have hc : (!(c == ' ')) = false := dropWhile_head_false rest hd
    have hc' : c = ' ' := by simpa using hc
    simp [tail34, hd, hc']

/-- Structure of a successful `matchChord`: where each field comes from. -/
theorem matchChord_cases {l : Str} {m : ChordMatch} {r : Str}
    (h : matchChord l = some (m, r)) :
    ∃ d rest', isDeg d = true ∧
      (m.f1 = [] ∨ ∃ a, isAcc a = true ∧ m.f1 = [a]) ∧
      m.f0 = l.takeWhile (fun c => c == ' ') ∧ m.f2 = [d] ∧
      m.f3 = (tail34 rest').1 ∧ m.f4 = (tail34 rest').2.1 ∧ r = (tail34 rest').2.2 ∧
      l.dropWhile (fun c => c == ' ') = m.f1 ++ d :: rest' := by
  rcases hd : l.dropWhile (fun c => c == ' ') with _ | ⟨c, rest⟩ <;>
    simp only [matchChord, hd] at h
  · exact Option.noConfusion h
  · split at h
    next hacc =>
      split at h
      next => exact Option.noConfusion h
      next d rest2 =>
        split at h
        next hdeg =>
          simp only [Option.some.injEq, Prod.mk.injEq] at h
          obtain ⟨hm, hr⟩ := h
          subst hm; subst hr
          exact ⟨d, rest2, hdeg, Or.inr ⟨c, hacc, rfl⟩, rfl, rfl, rfl, rfl, rfl, rfl⟩
        next => exact Option.noConfusion h
    next hnacc =>
      split at h
      next hdeg =>
        simp only [Option.some.injEq, Prod.mk.injEq] at h
        obtain ⟨hm, hr⟩ := h
        subst hm; subst hr
        exact ⟨c, rest, hdeg, Or.inl rfl, rfl, rfl, rfl, rfl, rfl, rfl⟩
      next => exact Option.noConfusion h

theorem isDeg_not_space {d : Char} (h : isDeg d = true) : (d == ' ') = false := by
  cases hds : (d == ' ')
  · rfl
  · have hd' : d = ' ' := by simpa using hds
    rw [hd'] at h
    exact absurd h (by decide)

theorem isDeg_not_acc {d : Char} (h : isDeg d = true) : isAcc d = false := by
  cases hds : isAcc d
  · rfl
  · have hd' : d = 'b' ∨ d = '#' := by simpa [isAcc] using hds
    rcases hd' with h2 | h2 <;> (rw [h2] at h; exact absurd h (by decide))

theorem isAcc_not_space {a : Char} (h : isAcc a = true) : (a == ' ') = false := by
  have ha : a = 'b' ∨ a = '#' := by simpa [isAcc] using h
  rcases ha with h2 | h2 <;> simp [h2]

/-- The five fields of a match concatenate with the remainder to the input. -/
theorem matchChord_text {l : Str} {m : ChordMatch} {r : Str}
    (h : matchChord l = some (m, r)) : m.text ++ r = l := by
  obtain ⟨d, rest', _, _, hf0, hf2, hf3, hf4, hr, hdw⟩ := matchChord_cases h
  have ht := tail34_text rest'
  subst hr
  rw [ChordMatch.text, hf0, hf2, hf3, hf4]
  have hsplit := List.takeWhile_append_dropWhile (fun c => c == ' ') l
  conv_rhs => rw [← hsplit, hdw, ← ht]
  simp

/-- A successful match consumes at least one character. -/
theorem matchChord_lt {l : Str} {m : ChordMatch} {r : Str}
    (h : matchChord l = some (m, r)) : r.length < l.length := by
  obtain ⟨d, rest', _, _, _, hf2, _, _, _, _⟩ := matchChord_cases h
  have ht := matchChord_text h
  have hlen : m.text.length + r.length = l.length := by
    rw [← ht]; simp
  have h2 : 0 < m.text.length := by
    rw [ChordMatch.text, hf2]
    simp
  omega

/-- The fields of a scanner match are recoverable from their concatenation. -/
theorem matchChord_canon {l : Str} {m : ChordMatch} {r : Str}
    (h : matchChord l = some (m, r)) : canonOf m.text = m := by
  obtain ⟨d, rest', hdeg, hf1, hf0, hf2, hf3, hf4, hr, hdw⟩ := matchChord_cases h
  obtain ⟨g0, g1, g2, g3, g4⟩ := m
  replace hf0 : g0 = l.takeWhile (fun c => c == ' ') := hf0
  replace hf1 : g1 = [] ∨ ∃ a, isAcc a = true ∧ g1 = [a] := hf1
  replace hf2 : g2 = [d] := hf2
  replace hf3 : g3 = (tail34 rest').1 := hf3
  replace hf4 : g4 = (tail34 rest').2.1 := hf4
  subst hf2; subst hf3; subst hf4
  have h31 := tail34_f3_nonspace rest'
  have h4 := tail34_f4_space rest'
  have hdsp := isDeg_not_space hdeg
  have hdacc := isDeg_not_acc hdeg
  have hf0all : ∀ x ∈ g0, (x == ' ') = true := by
    rw [hf0]; intro x hx
    have h2 := List.mem_takeWhile_imp hx
    simpa using h2
  have htw34 : ((tail34 rest').1 ++ (tail34 rest').2.1).takeWhile (fun y => !(y == ' ')) =
      (tail34 rest').1 := by
    rw [takeWhile_app_of_all _ _ (fun c hc => by simp [h31 c hc])]
    rcases h4 with h4 | h4 <;> simp [h4]
  have hdw34 : ((tail34 rest').1 ++ (tail34 rest').2.1).dropWhile (fun y => !(y == ' ')) =
      (tail34 rest').2.1 := by
    rw [dropWhile_app_of_all _ _ (fun c hc => by simp [h31 c hc])]
    rcases h4 with h4 | h4 <;> simp [h4]
  rcases hf1 with h1 | ⟨a, ha, h1⟩ <;> subst h1
  · have htext : ChordMatch.text ⟨g0, [], [d], (tail34 rest').1, (tail34 rest').2.1⟩ =
        g0 ++ (d :: ((tail34 rest').1 ++ (tail34 rest').2.1)) := by
      rw [ChordMatch.text]; simp
    have htw : (ChordMatch.text ⟨g0, [], [d], (tail34 rest').1,
        (tail34 rest').2.1⟩).takeWhile (fun x => x == ' ') = g0 := by
      rw [htext, takeWhile_app_of_all _ _ hf0all]
      simp [List.takeWhile_cons, hdsp]
    have hdw2 : (ChordMatch.text ⟨g0, [], [d], (tail34 rest').1,
        (tail34 rest').2.1⟩).dropWhile (fun x => x == ' ') =
        d :: ((tail34 rest').1 ++ (tail34 rest').2.1) := by
      rw [htext, dropWhile_app_of_all _ _ hf0all]
      simp [List.dropWhile_cons, hdsp]
    simp only [canonOf, htw, hdw2, hdacc, Bool.false_eq_true, if_false, htw34, hdw34]
  · have htext : ChordMatch.text ⟨g0, [a], [d], (tail34 rest').1, (tail34 rest').2.1⟩ =
        g0 ++ (a :: d :: ((tail34 rest').1 ++ (tail34 rest').2.1)) := by
      rw [ChordMatch.text]; simp
    have hasp := isAcc_not_space ha
    have htw : (ChordMatch.text ⟨g0, [a], [d], (tail34 rest').1,
        (tail34 rest').2.1⟩).takeWhile (fun x => x == ' ') = g0 := by
      rw [htext, takeWhile_app_of_all _ _ hf0all]
      simp [List.takeWhile_cons, hasp]
    have hdw2 : (ChordMatch.text ⟨g0, [a], [d], (tail34 rest').1,
        (tail34 rest').2.1⟩).dropWhile (fun x => x == ' ') =
        a :: d :: ((tail34 rest').1 ++ (tail34 rest').2.1) := by
      rw [htext, dropWhile_app_of_all _ _ hf0all]
      simp [List.dropWhile_cons, hasp]
    simp only [canonOf, htw, hdw2, ha, if_true, htw34, hdw34]

theorem segsText_cons (s : Seg) (ss : List Seg) :
    segsText (s :: ss) = segText s ++ segsText ss := rfl

/-- With enough fuel, the scan decomposition reassembles to the input line. -/
theorem scanFuel_text : ∀ (fuel : Nat) (l : Str), l.length ≤ fuel →
    segsText (scanFuel fuel l) = l := by
  intro fuel
  induction fuel with
  | zero =>
    intro l hl
    have hl' : l = [] := by
      cases l with
      | nil => rfl
      | cons c cs => simp at hl
    rw [hl']; rfl
  | succ fuel ih =>
    intro l hl
    cases l with
    | nil => rfl
    | cons c cs =>
      rcases hm : matchChord (c :: cs) with _ | ⟨m2, r⟩
      · simp only [scanFuel, hm, segsText_cons]
        have hcs : cs.length ≤ fuel := by
          have : (c :: cs).length = cs.length + 1 := rfl
          omega
        rw [ih cs hcs]
        rfl
      · simp only [scanFuel, hm, segsText_cons]
        have h1 := matchChord_text hm
        have h2 := matchChord_lt hm
        have hr : r.length ≤ fuel := by
          have : (c :: cs).length = cs.length + 1 := rfl
          omega
        rw [ih r hr]
        exact h1

/-- Every chord match the scan produces has canonical fields. -/
theorem scanFuel_chord_canon : ∀ (fuel : Nat) (l : Str) (m : ChordMatch),
    Seg.chord m ∈ scanFuel fuel l → canonOf m.text = m := by
  intro fuel
  induction fuel with
  | zero => intro l m hm; simp [scanFuel] at hm
  | succ fuel ih =>
    intro l m hm
    cases l with
    | nil => simp [scanFuel] at hm
    | cons c cs =>
      rcases hmc : matchChord (c :: cs) with _ | ⟨m2, r⟩ <;>
        simp only [scanFuel, hmc, List.mem_cons] at hm
      · rcases hm with hm | hm
        · exact absurd hm (by simp)
        · exact ih cs m hm
      · rcases hm with hm | hm
        · cases hm
          exact matchChord_canon hmc
        · exact ih r m hm

/-- The error output of one match step is its field-3 validation result; in
particular it never depends on the key. -/
theorem chordStep_errs (key : String) (n : Nat) (m : ChordMatch) :
    (chordStep key n m).2 = chordErrsOf n m := by
  by_cases htriv : m.f3 = [] ∨ m.f3 = [' '] ∨ m.f3 = ['\n']
  · have hC : ¬(¬(m.f3 = [] ∨ m.f3 = [' '] ∨ m.f3 = ['\n']) ∧ '/' ∈ m.f3 ∧
        (¬validBass ((m.f3.splitOn '/').getD 1 []) ∨ 1 < m.f3.count '/')) :=
      fun hcon => hcon.1 htriv
    simp only [chordStep, chordErrsOf]
    rw [if_neg (not_not_intro htriv), if_neg hC]
  · by_cases hsl : '/' ∈ m.f3
    · by_cases hb : ¬validBass ((m.f3.splitOn '/').getD 1 []) ∨ 1 < m.f3.count '/'
      · have hC : ¬(m.f3 = [] ∨ m.f3 = [' '] ∨ m.f3 = ['\n']) ∧ '/' ∈ m.f3 ∧
            (¬validBass ((m.f3.splitOn '/').getD 1 []) ∨ 1 < m.f3.count '/') :=
          ⟨htriv, hsl, hb⟩
        simp only [chordStep, chordErrsOf]
        rw [if_pos htriv, if_pos hsl, if_pos hb, if_pos hC]
        simp [ChordMatch.text]
      · have hC : ¬(¬(m.f3 = [] ∨ m.f3 = [' '] ∨ m.f3 = ['\n']) ∧ '/' ∈ m.f3 ∧
            (¬validBass ((m.f3.splitOn '/').getD 1 []) ∨ 1 < m.f3.count '/')) :=
          fun hcon => hb hcon.2.2
        simp only [chordStep, chordErrsOf]
        rw [if_pos htriv, if_pos hsl, if_neg hb, if_neg hC]
    · have hC : ¬(¬(m.f3 = [] ∨ m.f3 = [' '] ∨ m.f3 = ['\n']) ∧ '/' ∈ m.f3 ∧
          (¬validBass ((m.f3.splitOn '/').getD 1 []) ∨ 1 < m.f3.count '/')) :=
        fun hcon => hsl hcon.2.1
      simp only [chordStep, chordErrsOf]
      rw [if_pos htriv, if_neg hsl, if_neg hC]

theorem processMatchesFrom_errs (key : String) (n : Nat) :
    ∀ (ms : List ChordMatch) (pairs : List (Str × Str)) (errs : List ChordError),
    (processMatchesFrom key n ms pairs errs).2 = errs ++ (ms.map (chordErrsOf n)).flatten := by
  intro ms
  induction ms with
  | nil => intro pairs errs; simp [processMatchesFrom]
  | cons m rest ih =>
    intro pairs errs
    simp only [processMatchesFrom]
    rw [ih]
    simp [chordStep_errs, List.append_assoc]

theorem nodup_snoc {α : Type} [DecidableEq α] (l : List α) (a : α)
    (h : l.Nodup) (ha : a ∉ l) : (l ++ [a]).Nodup := by
  simp [List.nodup_append, h, ha]

/-- The membership-guarded accumulation of pairs preserves distinctness. -/
theorem processMatchesFrom_nodup (key : String) (n : Nat) :
    ∀ (ms : List ChordMatch) (pairs : List (Str × Str)) (errs : List ChordError),
    pairs.Nodup → (processMatchesFrom key n ms pairs errs).1.Nodup := by
  intro ms
  induction ms with
  | nil => intro pairs errs h; simpa [processMatchesFrom] using h
  | cons m rest ih =>
    intro pairs errs h
    simp only [processMatchesFrom]
    by_cases hmem : (chordStep key n m).1 ∈ pairs
    · rw [if_pos hmem]; exact ih _ _ h
    · rw [if_neg hmem]
      exact ih _ _ (nodup_snoc _ _ h hmem)

theorem formatChords_errs (line : Str) (n : Nat) (key : String) :
    (formatChords line n key).2 =
      ((scanMatches (stripParens line)).map (chordErrsOf n)).flatten := by
  simp only [formatChords, processMatches]
  rw [processMatchesFrom_errs]
  simp

theorem keyPassFrom_errs (key : String) : ∀ (contents : List Str) (i : Nat),
    (keyPassFrom key i contents).2 =
      ((contents.enumFrom i).map (fun p => (formatChords p.2 p.1 key).2)).flatten := by
  intro contents
  induction contents with
  | nil => intro i; simp [keyPassFrom]
  | cons line rest ih =>
    intro i
    simp only [keyPassFrom, List.enumFrom_cons, List.map_cons, List.flatten_cons]
    rw [ih]

/-- Chord errors are independent of the key of the pass. -/
theorem keyPass_errs_indep (key key' : String) (contents : List Str) :
    (keyPass key contents).2 = (keyPass key' contents).2 := by
  have hp : ∀ p : Nat × Str, (formatChords p.2 p.1 key).2 = (formatChords p.2 p.1 key').2 :=
    fun p => by rw [formatChords_errs, formatChords_errs]
  rw [keyPass, keyPass, keyPassFrom_errs, keyPassFrom_errs]
  simp only [hp]

theorem badFold (keys : List String) : ∀ acc : List String,
    keys.foldl (fun acc k => if k ∈ CHORD_KEYS then acc else acc ++ [k]) acc =
      acc ++ keys.filter (fun k => decide (¬ k ∈ CHORD_KEYS)) := by
  induction keys with
  | nil => intro acc; simp
  | cons k ks ih =>
    intro acc
    by_cases hk : k ∈ CHORD_KEYS
    · simp [List.foldl_cons, hk, ih, List.filter_cons]
    · simp [List.foldl_cons, hk, ih, List.filter_cons]

theorem validate_keys_none_iff (keys : List String) :
    validate_keys keys = none ↔ ∀ k ∈ keys, k ∈ CHORD_KEYS := by
  simp only [validate_keys, badFold keys [], List.nil_append]
  by_cases h : keys.filter (fun k => decide (¬ k ∈ CHORD_KEYS)) = []
  · rw [h, if_neg (by simp)]
    simp only [List.filter_eq_nil_iff] at h
    constructor
    · intro _ k hk
      have h2 := h k hk
      simpa using h2
    · intro _
      rfl
  · have hlen : 0 < (keys.filter (fun k => decide (¬ k ∈ CHORD_KEYS))).length :=
      List.length_pos.mpr h
    rw [if_pos hlen]
    constructor
    · intro hcon; exact Option.noConfusion hcon
    · intro hall
      exfalso
      apply h
      simp only [List.filter_eq_nil_iff]
      intro k hk
      simp [hall k hk]

/-- Every match the line scanner yields has canonical fields: they are
recoverable from their concatenated text. -/
theorem scanMatches_canon {l : Str} {m : ChordMatch} (hm : m ∈ scanMatches l) :
    canonOf m.text = m := by
  simp only [scanMatches, List.mem_filterMap] at hm
  obtain ⟨s, hs, hsm⟩ := hm
  cases s with
  | plain c => simp at hsm
  | chord m2 =>
    simp only [Option.some.injEq] at hsm
    subst hsm
    exact scanFuel_chord_canon l.length l m2 hs

/-- A key's document in a multi-key run equals its document in a single-key
run: error aborts never change what another key produces. -/
theorem processKeys_lookup (contents : List Str) :
    ∀ (keys : List String) (k : String), k ∈ keys →
      (processKeys keys contents).1.lookup k = (processKeys [k] contents).1.lookup k := by
  intro keys
  induction keys with
  | nil => intro k hk; simp at hk
  | cons k0 ks ih =>
    intro k hk
    by_cases he : (keyPass k0 contents).2 = []
    · have hek : (keyPass k contents).2 = [] := by
        rw [keyPass_errs_indep k k0 contents]; exact he
      by_cases hkk : k = k0
      · subst hkk
        simp [processKeys, he, List.lookup]
      · have hk' : k ∈ ks := by
          rcases List.mem_cons.mp hk with h | h
          · exact absurd h hkk
          · exact h
        have hbeq : (k == k0) = false := by simp [hkk]
        have hstep : (processKeys (k0 :: ks) contents).1.lookup k =
            (processKeys ks contents).1.lookup k := by
          simp [processKeys, he, List.lookup, hbeq]
        rw [hstep]
        exact ih k hk'
    · have hek : ¬(keyPass k contents).2 = [] := by
        rw [keyPass_errs_indep k k0 contents]; exact he
      simp [processKeys, he, hek, List.lookup]

/-- C1: the spec's per-line contract says `format_line` accepts the previous
line's intro-continuation flag and returns a record containing the formatted
line, the next-line-after-intro flag, and the chord errors.  In the code,
`format_line(line, line_num, key, debug=False)` accepts no such parameter and
returns only `{"edits", "errors"}`, while `cli.main` passes the keyword
`next_line_after_intro` and reads that key back — so every run raises
`TypeError` at the first formatted line. -/
theorem c1 : kwargsAccepted formatLineParams mainCallKwargs = false ∧
    formatLineResultKeys.contains "next_line_after_intro" = false := by decide

/-- C6: for every chord match produced by the tokenizer, concatenating its five
positional fields in order reproduces exactly the original matched substring:
the scan of any (parenthesis-stripped) line reassembles verbatim, each match
segment contributing precisely its five concatenated fields. -/
theorem c6 (l : Str) : segsText (scan l) = l := scanFuel_text l.length l (Nat.le_refl _)

/-- C10: `validate_keys` scans the entire list and aggregates the invalid keys:
it returns normally exactly when every key is recognized, and otherwise aborts
with a single message listing every invalid key, comma-joined in input order. -/
theorem c10 (keys : List String) :
    (validate_keys keys = none ↔ ∀ k ∈ keys, k ∈ CHORD_KEYS) ∧
    (¬(∀ k ∈ keys, k ∈ CHORD_KEYS) →
      validate_keys keys = some ("\nError - invalid keys found: " ++
        String.intercalate "," (keys.filter (fun k => decide (¬ k ∈ CHORD_KEYS))) ++ "\n")) := by
  constructor
  · exact validate_keys_none_iff keys
  · intro hbad
    have h : keys.filter (fun k => decide (¬ k ∈ CHORD_KEYS)) ≠ [] := by
      intro hcon
      apply hbad
      intro k hk
      have h2 := (List.filter_eq_nil_iff.mp hcon) k hk
      simpa using h2
    simp only [validate_keys, badFold keys [], List.nil_append]
    rw [if_pos (List.length_pos.mpr h)]

/-- Witness for C10 at a concrete key list with two invalid keys. -/
theorem c10_w :
    validate_keys ["C", "X", "Y"] =
      some ("\nError - invalid keys found: " ++ String.intercalate ","
        (["C", "X", "Y"].filter (fun k => decide (¬ k ∈ CHORD_KEYS))) ++ "\n") :=
  (c10 ["C", "X", "Y"]).2 (by decide)

/-- C8: key validation is fail-fast and whole-run: there are exactly 13
recognized keys; with every key recognized, validation succeeds and per-line
processing proceeds; with any unrecognized key the run aborts with a message,
and the outcome is independent of the file contents (abort happens before any
per-line processing). -/
theorem c8 (keys : List String) (contents : List Str) :
    CHORD_KEYS.length = 13 ∧
    ((∀ k ∈ keys, k ∈ CHORD_KEYS) →
      mainRun keys contents = Except.ok (processKeys keys contents)) ∧
    ((∃ k ∈ keys, k ∉ CHORD_KEYS) →
      ∃ msg, mainRun keys contents = Except.error msg ∧
        ∀ contents', mainRun keys contents' = Except.error msg) := by
  refine ⟨rfl, ?_, ?_⟩
  · intro hall
    have h := (validate_keys_none_iff keys).mpr hall
    simp [mainRun, h]
  · intro hex
    obtain ⟨k, hk, hbad⟩ := hex
    rcases ho : validate_keys keys with _ | msg
    · exact absurd ((validate_keys_none_iff keys).mp ho k hk) hbad
    · exact ⟨msg, by simp [mainRun, ho], fun contents' => by simp [mainRun, ho]⟩

/-- Witness for C8: a valid key list proceeds to processing; with an invalid
key the result is the same for different file contents (no per-line processing
happens). -/
theorem c8_w :
    mainRun ["C"] [chars "1"] = Except.ok (processKeys ["C"] [chars "1"]) ∧
    mainRun ["C", "X"] [chars "1"] = mainRun ["C", "X"] [chars "2/45"] := by
  constructor
  · exact (c8 ["C"] [chars "1"]).2.1 (by decide)
  · obtain ⟨msg, h1, h2⟩ := (c8 ["C", "X"] [chars "1"]).2.2 ⟨"X", by decide, by decide⟩
    rw [h1, h2 [chars "2/45"]]

/-- C4: chord syntax errors are fatal only to a key's own output: the document
a key receives in a multi-key run is identical to its document in a
single-key run, for every requested key list and input — error state is owned
per pass and (errors being key-independent) an abort never changes what any
other key would produce. -/
theorem c4 (keys : List String) (contents : List Str) (k : String) (hk : k ∈ keys) :
    (processKeys keys contents).1.lookup k = (processKeys [k] contents).1.lookup k :=
  processKeys_lookup contents keys k hk

/-- Witness for C4 at a concrete erroring input and key list. -/
theorem c4_w :
    (processKeys ["C", "D"] [chars "2/45"]).1.lookup "D" =
      (processKeys ["D"] [chars "2/45"]).1.lookup "D" :=
  c4 ["C", "D"] [chars "2/45"] "D" (by decide)

/-- C5 counterexample: a malformed chord on the first line (1-based position 1)
is reported with line number 0, not 1 — error records are 0-based. -/
theorem c5_cex :
    (keyPass "C" [chars "2/45"]).2 = [⟨chars "2/45", 0⟩] ∧
    (⟨chars "2/45", 1⟩ : ChordError) ∉ (keyPass "C" [chars "2/45"]).2 := by decide

/-- C5 amended: every Chord Error is reported with a 0-based line number and
the literal offending chord text: the errors aggregated over a key pass are
exactly the per-line errors computed at each line's 0-based index, in order. -/
theorem c5_amended (key : String) (contents : List Str) :
    (keyPass key contents).2 =
      (contents.enum.map (fun p => (formatChords p.2 p.1 key).2)).flatten := by
  rw [keyPass, keyPassFrom_errs]
  rfl

/-- C7: transposition is deterministic within a line — scanner matches with
identical chord text yield identical results — and the substitution pair list
built for a line is duplicate-free (identical pairs are deduplicated before
substitution). -/
theorem c7 (key : String) (n : Nat) (l : Str) :
    (processMatches key n (scanMatches l)).1.Nodup ∧
    ∀ m₁ ∈ scanMatches l, ∀ m₂ ∈ scanMatches l,
      m₁.text = m₂.text → chordStep key n m₁ = chordStep key n m₂ := by
  constructor
  · exact processMatchesFrom_nodup key n (scanMatches l) [] [] List.nodup_nil
  · intro m₁ h₁ m₂ h₂ htext
    have hc₁ := scanMatches_canon h₁
    have hc₂ := scanMatches_canon h₂
    rw [← hc₁, ← hc₂, htext]

/-- Witness for C7: a line with the same chord twice yields a duplicate-free
pair list of length one. -/
theorem c7_w :
    (processMatches "C" 0 (scanMatches (chars "1 1 "))).1.Nodup ∧
    (processMatches "C" 0 (scanMatches (chars "1 1 "))).1.length = 1 :=
  ⟨(c7 "C" 0 (chars "1 1 ")).1, by decide⟩

/-- C2 counterexample: the invalid inversion `2/45` in key C produces a Chord
Error, but transposition of the token is not aborted — the token is still
substituted into the line (the line `2/45` becomes `D`, the invalid trailing
text silently dropped from the replacement). -/
theorem c2_cex :
    formatChords (chars "2/45") 0 "C" = (chars "D", [⟨chars "2/45", 0⟩]) ∧
    chars "D" ≠ chars "2/45" := by decide

/-- C2 amended: for a chord whose field 3 contains an inversion, an invalid
bass part (or more than one `/`) yields a Chord Error recording the chord text
and line number, and the trailing field's markup is omitted from the edited
chord — but the remaining replacement is still substituted rather than the
token being skipped; a valid bass part is translated and reattached as
`<mainChord>/<bassChord>` inside the trailing superscript. -/
theorem c2_amended (key : String) (n : Nat) (m : ChordMatch) (hsl : '/' ∈ m.f3) :
    ((¬validBass ((m.f3.splitOn '/').getD 1 []) ∨ 1 < m.f3.count '/') →
      (chordStep key n m).2 = [⟨m.text, n⟩] ∧
      (chordStep key n m).1.2 = (chordStep key n ⟨m.f0, m.f1, m.f2, [], m.f4⟩).1.2) ∧
    ((validBass ((m.f3.splitOn '/').getD 1 []) ∧ ¬(1 < m.f3.count '/')) →
      (chordStep key n m).2 = [] ∧
      (chordStep key n m).1.2 =
        (chordStep key n ⟨m.f0, m.f1, m.f2, [], []⟩).1.2 ++
          tsWrapPost ((m.f3.splitOn '/').getD 0 [] ++ ['/'] ++
            translate key ((m.f3.splitOn '/').getD 1 [])) 0 ++ m.f4) := by
  have htriv : ¬(m.f3 = [] ∨ m.f3 = [' '] ∨ m.f3 = ['\n']) := by
    rintro (h | h | h) <;> rw [h] at hsl <;> simp at hsl
  constructor
  · intro hb
    constructor
    · rw [chordStep_errs]
      have hC : ¬(m.f3 = [] ∨ m.f3 = [' '] ∨ m.f3 = ['\n']) ∧ '/' ∈ m.f3 ∧
          (¬validBass ((m.f3.splitOn '/').getD 1 []) ∨ 1 < m.f3.count '/') :=
        ⟨htriv, hsl, hb⟩
      rw [chordErrsOf, if_pos hC]
    · simp only [chordStep]
      rw [if_pos htriv, if_pos hsl, if_pos hb]
      simp
  · intro hvc
    obtain ⟨hv, hc⟩ := hvc
    have hb2 : ¬(¬validBass ((m.f3.splitOn '/').getD 1 []) ∨ 1 < m.f3.count '/') :=
      fun hcon => hcon.elim (fun hx => hx hv) hc
    constructor
    · rw [chordStep_errs]
      have hC : ¬(¬(m.f3 = [] ∨ m.f3 = [' '] ∨ m.f3 = ['\n']) ∧ '/' ∈ m.f3 ∧
          (¬validBass ((m.f3.splitOn '/').getD 1 []) ∨ 1 < m.f3.count '/')) :=
        fun hcon => hb2 hcon.2.2
      rw [chordErrsOf, if_neg hC]
    · simp only [chordStep]
      rw [if_pos htriv, if_pos hsl, if_neg hb2]
      simp

/-- Witness for C2 at the invalid chord `2/45` in key C, line 0. -/
theorem c2_amended_w :
    (chordStep "C" 0 ⟨[], [], chars "2", chars "/45", []⟩).2 = [⟨chars "2/45", 0⟩] :=
  (((c2_amended "C" 0 ⟨[], [], chars "2", chars "/45", []⟩ (by decide)).1
    (by decide)).1).trans (by decide)

/-- C3 counterexample: translating the root `b3` (2 chars) to `Eb` (2 chars) in
key C — the translated root is not strictly longer than the original root,
yet the compensation flag fires: one following space is consumed (the original
chord text is extended by one space before substitution). -/
theorem c3_cex :
    (chordStep "C" 0 ⟨[], chars "b", chars "3", [], []⟩).1 = (chars "b3 ", chars "Eb") ∧
    (chars "b3").length = (chars "Eb").length := by decide

/-- C3 amended: for a lettered key and a chord without inversion, the
remove-one-full-space flag fires exactly when the translated root text is
longer than one character (not when it is strictly longer than the original
root text, which may itself be two characters); at most one space is ever
appended to any chord's original text. -/
theorem c3_amended (key : String) (n : Nat) (m : ChordMatch)
    (hk : ¬key = "NNS") (hs : ¬('/' ∈ m.f3)) :
    ((chordStep key n m).1.1 = m.text ++ [' '] ↔
      1 < (translate key (m.f1 ++ m.f2)).length) ∧
    ∀ (key2 : String) (n2 : Nat) (m2 : ChordMatch),
      (chordStep key2 n2 m2).1.1 = m2.text ∨
        (chordStep key2 n2 m2).1.1 = m2.text ++ [' '] := by
  constructor
  · by_cases h1 : 1 < (translate key (m.f1 ++ m.f2)).length
    · by_cases h3 : m.f3 = [] ∨ m.f3 = [' '] ∨ m.f3 = ['\n'] <;>
        simp [chordStep, hk, hs, h1, h3, ChordMatch.text]
    · by_cases h3 : m.f3 = [] ∨ m.f3 = [' '] ∨ m.f3 = ['\n'] <;>
        simp [chordStep, hk, hs, h1, h3, ChordMatch.text]
  · intro key2 n2 m2
    simp only [chordStep, ChordMatch.text]
    exact Or.symm (ite_eq_or_eq _ _ _)

/-- Witness for C3: the single-character root `1` in key Eb translates to the
two-character root `Eb` and triggers exactly one space removal. -/
theorem c3_amended_w :
    (chordStep "Eb" 0 ⟨[], [], chars "1", [], []⟩).1.1 = chars "1 " :=
  (((c3_amended "Eb" 0 ⟨[], [], chars "1", [], []⟩ (by decide) (by decide)).1).mpr
    (by decide)).trans (by decide)

/-- C9: in NNS output the filler computed for superscripted parts counts the
text length with every `△` glyph excluded (less the partial-space adjustment,
which the source initializes to zero and never changes): the accidental's left
padding and the trailing text's right padding each contain exactly
`(stripTri s).length` spaces. -/
theorem c9 (n : Nat) (m : ChordMatch)
    (h1 : ¬(m.f1 = [] ∨ m.f1 = [' '] ∨ m.f1 = ['\n']))
    (h3 : ¬(m.f3 = [] ∨ m.f3 = [' '] ∨ m.f3 = ['\n']))
    (hs : ¬('/' ∈ m.f3)) :
    (chordStep "NNS" n m).1.2 =
      m.f0 ++ (chars "\\ts\x7b\x7b\\thin" ++ spaces (stripTri m.f1).length ++
        chars "\x7d" ++ m.f1 ++ chars "\x7d") ++ m.f2 ++
      (chars "\\ts\x7b" ++ m.f3 ++ chars "\x7b\\thin" ++
        spaces ((stripTri m.f3).length - 0) ++ chars "\x7d\x7d") ++ m.f4 := by
  simp [chordStep, tsWrapPre, tsWrapPost, translate, h1, h3, hs]

/-- Witness for C9: the trailing text `△7` gets one filler space, not two —
the triangle glyph is excluded from the width count. -/
theorem c9_w :
    (chordStep "NNS" 0 ⟨[], chars "b", chars "1", chars "△7", []⟩).1.2 =
      chars "\\ts\x7b\x7b\\thin \x7db\x7d1\\ts\x7b△7\x7b\\thin \x7d\x7d" :=
  (c9 0 ⟨[], chars "b", chars "1", chars "△7", []⟩ (by decide) (by decide)
    (by decide)).trans (by decide)

end MusicCharts
